import Mathlib

/-!
# Verification of the educational blockchain ledger

Shallow embedding of the chain / transaction / proof-of-work / verification
engine (`Blockchain.py`, `block.py`, `transaction.py`, `hash_util.py`,
`verification.py`).

Numeric amounts and timestamps are modelled as rationals (`ℚ`).  SHA-256 and
the JSON rendering of `json.dumps(..., sort_keys=True)` are pure, deterministic
string functions; they are modelled abstractly by a `HashEnv` record of
functions, so every theorem below quantifies over the hash environment, and
concrete environments instantiate it for evaluation.
-/

namespace BlockchainSpec

/-- `transaction.py`: a value-transfer record `(sender, recipient, amount)`. -/
structure Transaction where
  sender : String
  recipient : String
  amount : ℚ
deriving DecidableEq, Repr

/-- `block.py`: a block `(index, previous_hash, transactions, proof, time)`.
The timestamp (a Python float, `time.time()`) is modelled as a rational. -/
structure Block where
  index : ℕ
  previous_hash : String
  transactions : List Transaction
  proof : ℕ
  time : ℚ
deriving DecidableEq, Repr

/-- The JSON values produced by `to_dict` serialization. -/
inductive Json where
  | num : ℚ → Json
  | str : String → Json
  | arr : List Json → Json
  | obj : List (String × Json) → Json

/-- Abstract hashing environment: `hash_string_256` models the SHA-256
hex digest of `hash_util.py`, `dumps` models
`json.dumps(..., sort_keys=True)`, and `fmt10` models the fixed-precision
timestamp rendering `format(time, ".10f")` of `Block.to_dict`.  All three are
pure deterministic string functions in the source; theorems are stated for an
arbitrary environment. -/
structure HashEnv where
  hash_string_256 : String → String
  dumps : Json → String
  fmt10 : ℚ → String

/-- `Transaction.to_dict`: the dict `{sender, recipient, amount}`. -/
def Transaction.to_dict (tx : Transaction) : Json :=
  Json.obj [("sender", Json.str tx.sender),
            ("recipient", Json.str tx.recipient),
            ("amount", Json.num tx.amount)]

/-- `Block.to_dict`: the dict `{index, previous_hash, transactions, proof,
time}` with the timestamp rendered by `format(time, ".10f")`. -/
def Block.to_dict (env : HashEnv) (b : Block) : Json :=
  Json.obj [("index", Json.num b.index),
            ("previous_hash", Json.str b.previous_hash),
            ("transactions", Json.arr (b.transactions.map Transaction.to_dict)),
            ("proof", Json.num b.proof),
            ("time", Json.str (env.fmt10 b.time))]

/-- `hash_util.get_hash`: SHA-256 of the canonical JSON dump of a value. -/
def get_hash (env : HashEnv) (j : Json) : String :=
  env.hash_string_256 (env.dumps j)

/-- `Verification.valid_proof`: hash of
`json.dumps([tx.to_dict() ...], sort_keys=True) + last_hash + str(proof)`
must start with `"0000"`. -/
def valid_proof (env : HashEnv) (transactions : List Transaction)
    (last_hash : String) (proof : ℕ) : Bool :=
  let transactions_dicts := transactions.map Transaction.to_dict
  let guess := env.dumps (Json.arr transactions_dicts) ++ last_hash ++ toString proof
  let guess_hash := env.hash_string_256 guess
  guess_hash.take 4 == "0000"

/-- The `while not valid_proof: proof += 1` loop of `proof_of_work`,
made total with explicit fuel: searches upward from `proof` and returns the
first nonce validating, or `none` when the fuel runs out. -/
def proof_of_work_from (env : HashEnv) (transactions : List Transaction)
    (last_hash : String) : ℕ → ℕ → Option ℕ
  | 0, _ => none
  | fuel + 1, proof =>
      if valid_proof env transactions last_hash proof then some proof
      else proof_of_work_from env transactions last_hash fuel (proof + 1)

/-- `Blockchain.py` module constant. -/
def MINING_REWARD : ℚ := 10

/-- `Blockchain.py` module constant. -/
def owner : String := "Kdhungel"

/-- The module-level ledger state of `Blockchain.py`:
`blockchain`, `open_transactions`, `participants`. -/
structure LedgerState where
  blockchain : List Block
  open_transactions : List Transaction
  participants : Finset String
deriving DecidableEq

/-- `Blockchain.py`: `genesis_block = Block(0, '0', [], 100)`; its timestamp
is whatever `time.time()` returned at module load. -/
def genesis_block (t0 : ℚ) : Block :=
  ⟨0, "0", [], 100, t0⟩

/-- The initial module state of `Blockchain.py`: genesis-only chain, empty
mempool, `participants = {owner}`. -/
def initial_state (t0 : ℚ) : LedgerState :=
  ⟨[genesis_block t0], [], {owner}⟩

/-- `Blockchain.proof_of_work`: hashes the last block, appends the mining
reward transaction to the open transactions, and brute-forces a nonce from 0.
Returns `none` when the chain is empty (the source would fail there) or the
fuel is exhausted. -/
def proof_of_work (env : HashEnv) (fuel : ℕ) (st : LedgerState) : Option ℕ :=
  match st.blockchain.getLast? with
  | none => none
  | some last_block =>
      let last_hash := get_hash env (Block.to_dict env last_block)
      let transactions := st.open_transactions ++ [⟨"MINING", owner, MINING_REWARD⟩]
      proof_of_work_from env transactions last_hash fuel 0

/-- `Blockchain.calculate_balance_details`: the nested `reduce`s computing
`(sent, received)` for a participant over every block of the chain. -/
def calculate_balance_details (st : LedgerState) (participant : String) : ℚ × ℚ :=
  let sent := st.blockchain.foldl
    (fun total block => total + block.transactions.foldl
      (fun acc tx => if tx.sender == participant then acc + tx.amount else acc) 0) 0
  let received := st.blockchain.foldl
    (fun total block => total + block.transactions.foldl
      (fun acc tx => if tx.recipient == participant then acc + tx.amount else acc) 0) 0
  (sent, received)

/-- `Blockchain.get_balance`: received minus sent. -/
def get_balance (st : LedgerState) (participant : String) : ℚ :=
  let details := calculate_balance_details st participant
  details.2 - details.1

/-- `Blockchain.add_transaction`: rejects non-positive amounts and amounts
exceeding the sender's confirmed balance, leaving the state unchanged;
otherwise appends the transaction to the mempool and records both
participants.  (`save_data` is an I/O boundary and is not modelled.) -/
def add_transaction (st : LedgerState) (recipient : String) (sender : String)
    (amount : ℚ) : Bool × LedgerState :=
  if amount ≤ 0 then (false, st)
  else if get_balance st sender < amount then (false, st)
  else
    (true,
     { st with
        open_transactions := st.open_transactions ++ [⟨sender, recipient, amount⟩],
        participants := insert recipient (insert sender st.participants) })

/-- `Blockchain.mine_block`: hashes the last block, runs proof of work over
`open_transactions + [reward]`, appends the new block and clears the mempool.
Returns `none` when the chain is empty or the proof search fuel runs out. -/
def mine_block (env : HashEnv) (fuel : ℕ) (now : ℚ) (st : LedgerState) :
    Option LedgerState :=
  match st.blockchain.getLast? with
  | none => none
  | some last_block =>
      let hashed_block := get_hash env (Block.to_dict env last_block)
      match proof_of_work env fuel st with
      | none => none
      | some proof =>
          let reward_transaction : Transaction := ⟨"MINING", owner, MINING_REWARD⟩
          let block_transactions := st.open_transactions ++ [reward_transaction]
          let block : Block :=
            ⟨st.blockchain.length, hashed_block, block_transactions, proof, now⟩
          some { st with
                  blockchain := st.blockchain ++ [block],
                  open_transactions := [] }

/-- The loop body of `Verification.verify_chain` for the non-genesis tail:
`prev` is the predecessor block, the link and the proof of each block are
checked, short-circuiting at the first failure. -/
def verify_chain_aux (env : HashEnv) : Block → List Block → Bool
  | _, [] => true
  | prev, b :: rest =>
      (b.previous_hash == get_hash env (Block.to_dict env prev))
        && valid_proof env b.transactions b.previous_hash b.proof
        && verify_chain_aux env b rest

/-- `Verification.verify_chain`: the block at index 0 is skipped, every later
block is checked against its predecessor. -/
def verify_chain (env : HashEnv) : List Block → Bool
  | [] => true
  | b :: rest => verify_chain_aux env b rest

/-- Default block used with `List.getD` when stating indexed chain facts. -/
def dfltBlock : Block := ⟨0, "0", [], 100, 0⟩

/-- The indexed reading of `verify_chain`'s checks: every block after index 0
links to the digest of its predecessor and carries a valid proof of work. -/
def chain_ok (env : HashEnv) (chain : List Block) : Prop :=
  ∀ i, ∀ _ : 0 < i, ∀ h2 : i < chain.length,
    chain[i].previous_hash = get_hash env (Block.to_dict env chain[i - 1]) ∧
      valid_proof env chain[i].transactions chain[i].previous_hash chain[i].proof = true

/-- The ledger states reachable from the fresh module state of `Blockchain.py`
using only `add_transaction` and successful `mine_block` calls. -/
inductive Reachable (env : HashEnv) : LedgerState → Prop
  | genesis (t0 : ℚ) : Reachable env (initial_state t0)
  | tx (st : LedgerState) (recipient sender : String) (amount : ℚ) :
      Reachable env st →
      Reachable env (add_transaction st recipient sender amount).2
  | mine (st st' : LedgerState) (fuel : ℕ) (now : ℚ) :
      Reachable env st → mine_block env fuel now st = some st' →
      Reachable env st'

/-! ## The class-based Ledger of `node.py`

`node.py` drives a class-based `Blockchain` object
(`blockchain.mine_block(miner=...)`, `blockchain.owner`,
`blockchain.verifier`, ...) whose defining module is not among the source
files; only its caller `node.py` is.  Its reward logic is therefore modelled
from the specification. -/

/-- Modelled from the spec: the base mining reward of the class-based Ledger
(`baseReward = 10`), whose defining module is missing from the sources. -/
def baseReward : ℚ := 10

/-- Modelled from the spec: the halving interval of the class-based Ledger
(`halvingInterval = 10`), whose defining module is missing from the sources. -/
def halvingInterval : ℕ := 10

/-- Modelled from the spec: the lifetime per-miner reward cap
(`rewardCap = 100`) of the class-based Ledger, whose defining module is
missing from the sources. -/
def rewardCap : ℕ := 100

/-- Modelled from the spec: `getDynamicReward()` of the class-based Ledger —
`reward = baseReward / 2^(floor(chainLength / halvingInterval))`.  The
defining module is missing from the sources. -/
def getDynamicReward (chainLength : ℕ) : ℚ :=
  baseReward / 2 ^ (chainLength / halvingInterval)

/-- Python-dict lookup with default 0, for the `mined_blocks_count` mapping. -/
def lookupCount (m : List (String × ℕ)) (k : String) : ℕ :=
  ((m.find? (fun e => e.1 == k)).map Prod.snd).getD 0

/-- Increment a key of the `mined_blocks_count` mapping (insert at 1 when
absent). -/
def bumpCount : List (String × ℕ) → String → List (String × ℕ)
  | [], k => [(k, 1)]
  | e :: rest, k =>
      if e.1 == k then (e.1, e.2 + 1) :: rest else e :: bumpCount rest k

/-- Modelled from the spec: the state of the class-based Ledger driven by
`node.py` — chain, mempool, per-miner mined-block counts, and the timestamp
of the last successful mine (for the cooldown throttle).  The defining module
is missing from the sources. -/
structure LedgerV2 where
  blockchain : List Block
  open_transactions : List Transaction
  mined_blocks_count : List (String × ℕ)
  last_mined_time : Option ℚ
deriving DecidableEq

/-- Modelled from the spec: `mineBlock(miner)` of the class-based Ledger —
soft-rejects within the 10-time-unit cooldown; computes the dynamic reward;
skips the reward transaction (and the count increment) once the miner has
reached the lifetime reward cap; otherwise appends the reward transaction to
the mempool snapshot; searches a proof over the candidate transactions and
the last block's digest; appends the block and clears the mempool.  `none`
models "no block produced" (throttled, empty chain, or fuel exhausted). -/
def mine_block_v2 (env : HashEnv) (fuel : ℕ) (now : ℚ) (miner : String)
    (st : LedgerV2) : Option LedgerV2 :=
  let throttled : Bool := match st.last_mined_time with
    | some t => decide (now - t < 10)
    | none => false
  if throttled then none
  else
    match st.blockchain.getLast? with
    | none => none
    | some last_block =>
        let reward := getDynamicReward st.blockchain.length
        let capped := rewardCap ≤ lookupCount st.mined_blocks_count miner
        let reward_transactions : List Transaction :=
          if capped then [] else [⟨"MINING", miner, reward⟩]
        let candidate := st.open_transactions ++ reward_transactions
        let last_hash := get_hash env (Block.to_dict env last_block)
        match proof_of_work_from env candidate last_hash fuel 0 with
        | none => none
        | some proof =>
            let block : Block :=
              ⟨st.blockchain.length, last_hash, candidate, proof, now⟩
            some { blockchain := st.blockchain ++ [block],
                   open_transactions := [],
                   mined_blocks_count :=
                     if capped then st.mined_blocks_count
                     else bumpCount st.mined_blocks_count miner,
                   last_mined_time := some now }

/-! ## Concrete hash environments and states used to evaluate the model -/

/-- A degenerate hash environment: every digest is `"0000"`, so every nonce
is a valid proof and every link matches once built by mining. -/
def constEnv : HashEnv :=
  ⟨fun _ => "0000", fun _ => "", fun _ => ""⟩

/-- A hash environment whose digest starts with `"0000"` exactly on the
pre-image `"2"`: with empty dumps and an empty previous hash the guess for
nonce `p` is `toString p`, so the proof search must count up to 2. -/
def suffixEnv : HashEnv :=
  ⟨fun s => if s = "2" then "0000" else "ffff", fun _ => "", fun _ => ""⟩

/-- A hash environment distinguishing the empty transaction list: dumping an
empty JSON array yields `"X"`, any other value `""`; digests of strings
starting with `"X"` miss the `"0000"` prefix, all others have it. -/
def emptyTagEnv : HashEnv :=
  ⟨fun s => if s.take 1 = "X" then "ffff" else "0000",
   fun j => match j with
     | Json.arr [] => "X"
     | _ => "",
   fun _ => ""⟩

/-- The state after one `constEnv` mine from the fresh module state. -/
def minedOnce : LedgerState :=
  ⟨[genesis_block 0, ⟨1, "0000", [⟨"MINING", owner, MINING_REWARD⟩], 0, 0⟩],
   [], {owner}⟩

/-- The chain of `minedOnce` with block 1 tampered the way
`handle_tamper_blockchain` does. -/
def tamperedChain : List Block :=
  [genesis_block 0, ⟨1, "0000", [⟨"Hacker", "Evil", 9999⟩], 0, 0⟩]

/-- A two-block chain valid under `emptyTagEnv`. -/
def emptyTagChain : List Block :=
  [genesis_block 0, ⟨1, "0000", [⟨"MINING", owner, MINING_REWARD⟩], 0, 0⟩]

/-- A ledger state with one confirmed block granting `"Alice"` 10 units. -/
def aliceState : LedgerState :=
  ⟨[genesis_block 0, ⟨1, "h", [⟨"MINING", "Alice", 10⟩], 0, 0⟩], [],
   {"Alice"}⟩

/-- A ledger state whose chain holds only transfer transactions between the
three recorded participants. -/
def transferState : LedgerState :=
  ⟨[genesis_block 0, ⟨1, "h", [⟨"A", "B", 5⟩, ⟨"B", "C", 2⟩], 0, 0⟩], [],
   {"A", "B", "C"}⟩

/-- A fresh class-based ledger state with an uncapped miner. -/
def freshV2 : LedgerV2 :=
  ⟨[genesis_block 0], [], [], none⟩

/-- The result of mining `freshV2` with miner `"M"` under `constEnv`: the
reward transaction carries the dynamic reward at chain length 1. -/
def freshV2Mined : LedgerV2 :=
  ⟨[genesis_block 0, ⟨1, "0000", [⟨"MINING", "M", getDynamicReward 1⟩], 0, 0⟩],
   [], [("M", 1)], some 0⟩

/-- A class-based ledger state whose miner `"M"` has reached the reward cap,
with one pending transfer in the mempool. -/
def cappedV2 : LedgerV2 :=
  ⟨[genesis_block 0], [⟨"A", "B", 1⟩], [("M", 100)], none⟩

/-- The result of mining `cappedV2` with miner `"M"` under `constEnv`. -/
def cappedV2Mined : LedgerV2 :=
  ⟨[genesis_block 0, ⟨1, "0000", [⟨"A", "B", 1⟩], 0, 0⟩],
   [], [("M", 100)], some 0⟩

/-! ## Proof-of-work search -/

/-- Soundness of the brute-force loop: a returned nonce validates, is at
least the starting nonce, and every nonce between the start and it fails. -/
lemma proof_of_work_from_sound (env : HashEnv) (transactions : List Transaction)
    (last_hash : String) :
    ∀ (fuel start p : ℕ),
      proof_of_work_from env transactions last_hash fuel start = some p →
      valid_proof env transactions last_hash p = true ∧ start ≤ p ∧
        ∀ q, start ≤ q → q < p → valid_proof env transactions last_hash q = false := by
  intro fuel
  induction fuel with
  | zero => intro start p h; exact absurd h (by simp [proof_of_work_from])
  | succ fuel ih =>
      intro start p h
      rw [proof_of_work_from] at h
      by_cases hv : valid_proof env transactions last_hash start = true
      · rw [if_pos hv] at h
        obtain rfl : start = p := by injection h
        exact ⟨hv, le_refl _, fun q hq hlt => absurd hq (by omega)⟩
      · rw [if_neg hv] at h
        obtain ⟨h1, h2, h3⟩ := ih (start + 1) p h
        refine ⟨h1, by omega, fun q hq hlt => ?_⟩
        rcases eq_or_lt_of_le hq with rfl | hq2
        · exact Bool.eq_false_iff.mpr hv
        · exact h3 q (by omega) hlt

/-- C3: whenever the brute-force search `proof_of_work` terminates it returns
the least nonce validating `valid_proof` for the given transaction list and
previous hash (it starts at 0 and increments by one), and in particular
`valid_proof` holds of the returned nonce. -/
theorem proof_of_work_returns_least (env : HashEnv)
    (transactions : List Transaction) (last_hash : String) (fuel p : ℕ)
    (h : proof_of_work_from env transactions last_hash fuel 0 = some p) :
    valid_proof env transactions last_hash p = true ∧
      ∀ q < p, valid_proof env transactions last_hash q = false := by
  obtain ⟨h1, _, h3⟩ := proof_of_work_from_sound env transactions last_hash fuel 0 p h
  exact ⟨h1, fun q hq => h3 q (Nat.zero_le q) hq⟩

/-- Witness for C3: under `suffixEnv` the search over the empty transaction
list and empty previous hash stops at nonce 2, and nonces 0 and 1 fail. -/
theorem proof_of_work_returns_least_witness :
    valid_proof suffixEnv [] "" 2 = true ∧
      valid_proof suffixEnv [] "" 1 = false ∧
      valid_proof suffixEnv [] "" 0 = false :=
  have h := proof_of_work_returns_least suffixEnv [] "" 5 2 (by decide)
  ⟨h.1, h.2 1 (by decide), h.2 0 (by decide)⟩

/-- C10: `verify_chain` is true on the empty chain and on every singleton
chain, whatever the single block contains — index 0 is exempt from all
validation. -/
theorem verify_chain_trivial_short_chains (env : HashEnv) (b : Block) :
    verify_chain env [] = true ∧ verify_chain env [b] = true :=
  ⟨rfl, rfl⟩

/-! ## Characterizing `verify_chain` -/

/-- The loop of `verify_chain` checks exactly the link and proof conditions of
every block of the tail, each against its predecessor. -/
lemma verify_chain_aux_true_iff (env : HashEnv) :
    ∀ (rest : List Block) (prev : Block),
      verify_chain_aux env prev rest = true ↔ chain_ok env (prev :: rest) := by
  intro rest
  induction rest with
  | nil =>
      intro prev
      constructor
      · intro _ i h1 h2
        simp at h2
        omega
      · intro _
        rfl
  | cons c rest ih =>
      intro prev
      rw [verify_chain_aux]
      simp only [Bool.and_eq_true, beq_iff_eq]
      constructor
      · rintro ⟨⟨hlink, hproof⟩, hrest⟩ i h1 h2
        rcases i with _ | _ | j
        · omega
        · simp only [List.getElem_cons_succ, List.getElem_cons_zero,
            Nat.add_sub_cancel]
          exact ⟨hlink, hproof⟩
        · have hj := (ih c).mp hrest (j + 1) (by omega)
            (by simp at h2 ⊢; omega)
          simpa using hj
      · intro h
        have h1 := h 1 (by omega) (by simp)
        simp only [List.getElem_cons_succ, List.getElem_cons_zero,
          Nat.add_sub_cancel] at h1
        refine ⟨⟨h1.1, h1.2⟩, (ih c).mpr ?_⟩
        intro j hj1 hj2
        rcases j with _ | k
        · omega
        · have hk := h (k + 2) (by omega) (by simp at hj2 ⊢; omega)
          simpa using hk

/-- `verify_chain` is true exactly when every non-genesis block passes the
link check and the proof check. -/
lemma verify_chain_true_iff (env : HashEnv) (chain : List Block) :
    verify_chain env chain = true ↔ chain_ok env chain := by
  cases chain with
  | nil =>
      constructor
      · intro _ i h1 h2
        simp at h2
      · intro _
        rfl
  | cons b rest => exact verify_chain_aux_true_iff env rest b

set_option maxHeartbeats 2000000 in
/-- Appending a block that links to the digest of the previous last block and
carries a valid proof preserves the indexed checks. -/
lemma chain_ok_append (env : HashEnv) (chain : List Block) (b : Block)
    (hne : chain ≠ []) (hok : chain_ok env chain)
    (hlink : b.previous_hash = get_hash env (Block.to_dict env (chain.getLast hne)))
    (hproof : valid_proof env b.transactions b.previous_hash b.proof = true) :
    chain_ok env (chain ++ [b]) := by
  intro i h1 h2
  simp only [List.length_append, List.length_cons, List.length_nil] at h2
  by_cases hi : i < chain.length
  · rw [List.getElem_append_left hi, List.getElem_append_left (by omega)]
    exact hok i h1 hi
  · have hpos : 0 < chain.length := List.length_pos.mpr hne
    have hieq : i = chain.length := by omega
    subst hieq
    have e1 : (chain ++ [b])[chain.length] = b :=
      List.getElem_concat_length chain b chain.length rfl (by simp)
    have e2 : (chain ++ [b])[chain.length - 1] = chain[chain.length - 1] :=
      List.getElem_append_left (by omega)
    rw [e1, e2]
    constructor
    · rw [hlink, List.getLast_eq_getElem chain hne]
    · exact hproof

/-! ## Mining preserves chain validity -/

/-- Unfolding `proof_of_work` when the chain is non-empty. -/
lemma proof_of_work_eq (env : HashEnv) (fuel : ℕ) (st : LedgerState)
    (last_block : Block) (hlast : st.blockchain.getLast? = some last_block) :
    proof_of_work env fuel st =
      proof_of_work_from env
        (st.open_transactions ++ [⟨"MINING", owner, MINING_REWARD⟩])
        (get_hash env (Block.to_dict env last_block)) fuel 0 := by
  unfold proof_of_work
  rw [hlast]

/-- Unfolding `mine_block` when the chain is non-empty and the proof search
succeeds: the new block collects the mempool plus the reward transaction,
links to the last block's digest, and the mempool is cleared. -/
lemma mine_block_eq (env : HashEnv) (fuel : ℕ) (now : ℚ) (st : LedgerState)
    (last_block : Block) (proof : ℕ)
    (hlast : st.blockchain.getLast? = some last_block)
    (hpow : proof_of_work env fuel st = some proof) :
    mine_block env fuel now st =
      some { st with
              blockchain := st.blockchain ++
                [⟨st.blockchain.length,
                  get_hash env (Block.to_dict env last_block),
                  st.open_transactions ++ [⟨"MINING", owner, MINING_REWARD⟩],
                  proof, now⟩],
              open_transactions := [] } := by
  unfold mine_block
  rw [hlast, hpow]

/-- A successful `mine_block` keeps `verify_chain` true. -/
lemma mine_block_preserves_verify (env : HashEnv) (fuel : ℕ) (now : ℚ)
    (st st' : LedgerState) (hv : verify_chain env st.blockchain = true)
    (h : mine_block env fuel now st = some st') :
    verify_chain env st'.blockchain = true := by
  cases hlast : st.blockchain.getLast? with
  | none =>
      rw [show mine_block env fuel now st = none by unfold mine_block; rw [hlast]] at h
      exact absurd h (by simp)
  | some last_block =>
      cases hpow : proof_of_work env fuel st with
      | none =>
          rw [show mine_block env fuel now st = none by
            unfold mine_block; rw [hlast, hpow]] at h
          exact absurd h (by simp)
      | some proof =>
          rw [mine_block_eq env fuel now st last_block proof hlast hpow] at h
          obtain rfl : _ = st' := by injection h
          have hne : st.blockchain ≠ [] := by
            intro hnil
            rw [hnil] at hlast
            simp at hlast
          have hlastval : st.blockchain.getLast hne = last_block :=
            (List.getLast_eq_iff_getLast_eq_some hne).mpr hlast
          have hvalid :
              valid_proof env
                (st.open_transactions ++ [⟨"MINING", owner, MINING_REWARD⟩])
                (get_hash env (Block.to_dict env last_block)) proof = true := by
            rw [proof_of_work_eq env fuel st last_block hlast] at hpow
            exact (proof_of_work_from_sound env _ _ fuel 0 proof hpow).1
          rw [verify_chain_true_iff]
          apply chain_ok_append env st.blockchain _ hne
            ((verify_chain_true_iff env st.blockchain).mp hv)
          · rw [hlastval]
          · exact hvalid

/-- `add_transaction` never touches the chain, whether it succeeds or not. -/
lemma add_transaction_blockchain (st : LedgerState) (recipient sender : String)
    (amount : ℚ) :
    ((add_transaction st recipient sender amount).2).blockchain = st.blockchain := by
  unfold add_transaction
  split
  · rfl
  · split
    · rfl
    · rfl

/-- C1: every chain built solely through `mine_block` from the genesis state
(interleaved with any `add_transaction` calls) passes `verify_chain`. -/
theorem mined_chains_verify (env : HashEnv) (st : LedgerState)
    (h : Reachable env st) : verify_chain env st.blockchain = true := by
  induction h with
  | genesis t0 => rfl
  | tx st recipient sender amount _ ih =>
      rw [add_transaction_blockchain]
      exact ih
  | mine st st' fuel now _ hmine ih =>
      exact mine_block_preserves_verify env fuel now st st' ih hmine

/-- Witness for C1: the state reached by one `mine_block` under `constEnv`
has a chain that `verify_chain` accepts. -/
theorem mined_chains_verify_witness :
    verify_chain constEnv minedOnce.blockchain = true :=
  mined_chains_verify constEnv minedOnce
    (Reachable.mine (initial_state 0) minedOnce 1 0 (Reachable.genesis 0)
      (by decide))

/-! ## Verification behaviour and tampering -/

/-- `List.getD` agrees with indexing below the length. -/
lemma getD_eq_getElem_of_lt {α : Type} (l : List α) (d : α) (i : ℕ)
    (h : i < l.length) : l.getD i d = l[i] := by
  simp [List.getD_eq_getElem?_getD, List.getElem?_eq_getElem h]

/-- C2 (amended): `verify_chain` is true iff every block after index 0 links
to its predecessor's digest and carries a valid proof (the genesis block is
never checked), and overwriting a non-genesis block's transactions flips
`verify_chain` to false whenever the new transaction list fails the proof
check against the block's stored `previous_hash` and `proof`. -/
theorem verify_chain_characterization (env : HashEnv) (chain : List Block) :
    (verify_chain env chain = true ↔ chain_ok env chain) ∧
    (∀ i, ∀ _ : 0 < i, ∀ _ : i < chain.length, ∀ txs : List Transaction,
      valid_proof env txs (chain.getD i dfltBlock).previous_hash
        (chain.getD i dfltBlock).proof = false →
      verify_chain env
        (chain.set i { chain.getD i dfltBlock with transactions := txs })
          = false) := by
  refine ⟨verify_chain_true_iff env chain, ?_⟩
  intro i h1 h2 txs hbad
  cases hb : verify_chain env
      (chain.set i { chain.getD i dfltBlock with transactions := txs }) with
  | false => rfl
  | true =>
      exfalso
      have hok := (verify_chain_true_iff env _).mp hb
      have hi2 : i < (chain.set i
          { chain.getD i dfltBlock with transactions := txs }).length := by
        simpa using h2
      have hcheck := hok i h1 hi2
      rw [List.getElem_set_self] at hcheck
      have hv := hcheck.2
      simp only at hv
      rw [hbad] at hv
      simp at hv

/-- Witness for C2: under `emptyTagEnv` the two-block chain passes, and
tampering block 1 with the empty transaction list (which fails the proof
check there) makes `verify_chain` false. -/
theorem verify_chain_characterization_witness :
    verify_chain emptyTagEnv
      (emptyTagChain.set 1
        { emptyTagChain.getD 1 dfltBlock with
            transactions := ([] : List Transaction) }) = false ∧
      verify_chain emptyTagEnv emptyTagChain = true :=
  ⟨(verify_chain_characterization emptyTagEnv emptyTagChain).2 1 (by decide)
      (by decide) [] (by decide),
    by decide⟩

/-- C2 counterexample: overwriting a non-genesis block's transactions with a
different transaction list does NOT always make `verify_chain` false — under
`constEnv` the chain mined from genesis stays accepted after block 1's
transactions are replaced by the tampering transaction `Hacker → Evil: 9999`,
because the replacement still passes the (degenerate) proof check. -/
theorem tamper_not_always_detected :
    tamperedChain =
        minedOnce.blockchain.set 1
          { minedOnce.blockchain.getD 1 dfltBlock with
              transactions := [⟨"Hacker", "Evil", 9999⟩] } ∧
      ([⟨"Hacker", "Evil", 9999⟩] : List Transaction) ≠
        (minedOnce.blockchain.getD 1 dfltBlock).transactions ∧
      verify_chain constEnv minedOnce.blockchain = true ∧
      verify_chain constEnv tamperedChain = true := by
  decide

/-! ## Adding transactions -/

/-- C4: `add_transaction` rejects (returning `false` and the unchanged state)
exactly when the amount is non-positive or exceeds the sender's confirmed
balance; otherwise it appends the single transaction to the mempool, records
both participants and returns `true`; and the affordability check reads the
confirmed chain only — the mempool contributes nothing to `get_balance`. -/
theorem add_transaction_spec (st : LedgerState) (recipient sender : String)
    (amount : ℚ) :
    (amount ≤ 0 ∨ get_balance st sender < amount →
      add_transaction st recipient sender amount = (false, st)) ∧
    (0 < amount → amount ≤ get_balance st sender →
      add_transaction st recipient sender amount =
        (true,
         { st with
            open_transactions :=
              st.open_transactions ++ [⟨sender, recipient, amount⟩],
            participants := insert recipient (insert sender st.participants) })) ∧
    (∀ txs : List Transaction,
      get_balance { st with open_transactions := txs } sender =
        get_balance st sender) := by
  refine ⟨?_, ?_, fun txs => rfl⟩
  · rintro (h | h)
    · unfold add_transaction
      rw [if_pos h]
    · unfold add_transaction
      by_cases h0 : amount ≤ 0
      · rw [if_pos h0]
      · rw [if_neg h0, if_pos h]
  · intro h1 h2
    unfold add_transaction
    rw [if_neg (by linarith), if_neg (by linarith)]

/-- Witness for C4: with a chain granting `"Alice"` 10 units, sending 11 is
rejected without side effect and sending 3 appends exactly one mempool
transaction and records both participants. -/
theorem add_transaction_spec_witness :
    add_transaction aliceState "Bob" "Alice" 11 = (false, aliceState) ∧
      add_transaction aliceState "Bob" "Alice" 3 =
        (true,
         { aliceState with
            open_transactions :=
              aliceState.open_transactions ++ [⟨"Alice", "Bob", 3⟩],
            participants :=
              insert "Bob" (insert "Alice" aliceState.participants) }) := by
  have hbal : get_balance aliceState "Alice" = 10 := by
    norm_num [get_balance, calculate_balance_details, aliceState, genesis_block,
      List.foldl_cons, List.foldl_nil, show ¬("MINING" = "Alice") by decide]
  exact ⟨(add_transaction_spec aliceState "Bob" "Alice" 11).1
      (Or.inr (by rw [hbal]; norm_num)),
    (add_transaction_spec aliceState "Bob" "Alice" 3).2.1 (by norm_num)
      (by rw [hbal]; norm_num)⟩

/-! ## Balances -/

/-- The inner `reduce` of `calculate_balance_details` sums the amounts of the
transactions selected by the predicate. -/
lemma foldl_filter_sum (q : Transaction → Bool) :
    ∀ (l : List Transaction) (acc : ℚ),
      l.foldl (fun acc tx => if q tx then acc + tx.amount else acc) acc =
        acc + ((l.filter q).map Transaction.amount).sum := by
  intro l
  induction l with
  | nil => intro acc; simp
  | cons tx l ih =>
      intro acc
      cases hq : q tx with
      | true => simp [hq, ih, List.filter_cons, add_assoc]
      | false => simp [hq, ih, List.filter_cons]

/-- The outer `reduce` of `calculate_balance_details` sums the per-block
selected amounts over the whole chain. -/
lemma blocks_foldl_sum (q : Transaction → Bool) :
    ∀ (bs : List Block) (acc : ℚ),
      bs.foldl
        (fun total block => total + block.transactions.foldl
          (fun acc tx => if q tx then acc + tx.amount else acc) 0) acc =
        acc + (bs.map
          (fun b => ((b.transactions.filter q).map Transaction.amount).sum)).sum := by
  intro bs
  induction bs with
  | nil => intro acc; simp
  | cons b bs ih =>
      intro acc
      rw [List.foldl_cons, foldl_filter_sum q b.transactions 0, ih]
      simp
      ring

/-- `get_balance` is the chain-wide received sum minus the chain-wide sent
sum. -/
lemma get_balance_eq (st : LedgerState) (p : String) :
    get_balance st p =
      (st.blockchain.map (fun b =>
        ((b.transactions.filter (fun tx => tx.recipient == p)).map
          Transaction.amount).sum)).sum -
      (st.blockchain.map (fun b =>
        ((b.transactions.filter (fun tx => tx.sender == p)).map
          Transaction.amount).sum)).sum := by
  unfold get_balance calculate_balance_details
  rw [blocks_foldl_sum, blocks_foldl_sum]
  simp

/-- C7: for every participant and every ledger state, `get_balance` is the
sum of amounts received in confirmed blocks minus the sum of amounts sent in
confirmed blocks, and the mempool contributes nothing to it. -/
theorem get_balance_spec (st : LedgerState) (p : String) :
    (get_balance st p =
      (st.blockchain.map (fun b =>
        ((b.transactions.filter (fun tx => tx.recipient == p)).map
          Transaction.amount).sum)).sum -
      (st.blockchain.map (fun b =>
        ((b.transactions.filter (fun tx => tx.sender == p)).map
          Transaction.amount).sum)).sum) ∧
    (∀ txs : List Transaction,
      get_balance { st with open_transactions := txs } p = get_balance st p) :=
  ⟨get_balance_eq st p, fun _ => rfl⟩

/-- Filtering then summing amounts equals summing a guarded amount. -/
lemma filter_sum_eq_ite_sum (q : Transaction → Bool) :
    ∀ l : List Transaction,
      ((l.filter q).map Transaction.amount).sum =
        (l.map (fun tx => if q tx then tx.amount else 0)).sum := by
  intro l
  induction l with
  | nil => simp
  | cons tx l ih =>
      cases hq : q tx with
      | true => simp [List.filter_cons, hq, ih]
      | false => simp [List.filter_cons, hq, ih]

/-- Summing block-wise sums equals summing over the flattened transaction
list. -/
lemma map_sum_flatten (f : Transaction → ℚ) :
    ∀ bs : List Block,
      (bs.map (fun b => (b.transactions.map f).sum)).sum =
        (((bs.map Block.transactions).flatten).map f).sum := by
  intro bs
  induction bs with
  | nil => simp
  | cons b bs ih => simp [ih]

/-- A finite sum of list sums commutes to a list sum of finite sums. -/
lemma finset_sum_list_sum {α : Type} (P : Finset String) (f : String → α → ℚ) :
    ∀ l : List α,
      (P.sum fun p => (l.map (f p)).sum) =
        (l.map (fun x => P.sum fun p => f p x)).sum := by
  intro l
  induction l with
  | nil => simp
  | cons x l ih => simp [Finset.sum_add_distrib, ih]

/-- C8: over a chain holding only transfer transactions (no mining-reward
transactions), with a participants set containing every sender and recipient
appearing in the chain, the participants' balances sum to zero. -/
theorem balance_conservation (st : LedgerState)
    (hpart : ∀ b ∈ st.blockchain, ∀ tx ∈ b.transactions,
      tx.sender ∈ st.participants ∧ tx.recipient ∈ st.participants)
    (_hnoreward : ∀ b ∈ st.blockchain, ∀ tx ∈ b.transactions,
      tx.sender ≠ "MINING") :
    (st.participants.sum fun p => get_balance st p) = 0 := by
  set T := (st.blockchain.map Block.transactions).flatten with hT
  have hmem : ∀ tx ∈ T,
      tx.sender ∈ st.participants ∧ tx.recipient ∈ st.participants := by
    intro tx htx
    rw [hT, List.mem_flatten] at htx
    obtain ⟨l, hl, htxl⟩ := htx
    rw [List.mem_map] at hl
    obtain ⟨b, hb, rfl⟩ := hl
    exact hpart b hb tx htxl
  have conv : ∀ q : Transaction → Bool,
      (st.blockchain.map (fun b =>
        ((b.transactions.filter q).map Transaction.amount).sum)).sum =
      (T.map (fun tx => if q tx then tx.amount else 0)).sum := by
    intro q
    rw [List.map_congr_left (fun b _ => filter_sum_eq_ite_sum q b.transactions),
      map_sum_flatten _ st.blockchain]
  have step1 : (st.participants.sum fun p => get_balance st p) =
      (st.participants.sum fun p =>
        (T.map (fun tx => if tx.recipient == p then tx.amount else 0)).sum) -
      (st.participants.sum fun p =>
        (T.map (fun tx => if tx.sender == p then tx.amount else 0)).sum) := by
    rw [← Finset.sum_sub_distrib]
    apply Finset.sum_congr rfl
    intro p _
    rw [get_balance_eq st p, conv, conv]
  rw [step1, finset_sum_list_sum, finset_sum_list_sum]
  have e1 : T.map (fun tx => st.participants.sum fun p =>
        if tx.recipient == p then tx.amount else 0) =
      T.map Transaction.amount := by
    apply List.map_congr_left
    intro tx htx
    have hs : (st.participants.sum fun p =>
        if tx.recipient == p then tx.amount else 0) =
        if tx.recipient ∈ st.participants then tx.amount else 0 := by
      simp only [beq_iff_eq]
      exact Finset.sum_ite_eq st.participants tx.recipient (fun _ => tx.amount)
    rw [hs, if_pos (hmem tx htx).2]
  have e2 : T.map (fun tx => st.participants.sum fun p =>
        if tx.sender == p then tx.amount else 0) =
      T.map Transaction.amount := by
    apply List.map_congr_left
    intro tx htx
    have hs : (st.participants.sum fun p =>
        if tx.sender == p then tx.amount else 0) =
        if tx.sender ∈ st.participants then tx.amount else 0 := by
      simp only [beq_iff_eq]
      exact Finset.sum_ite_eq st.participants tx.sender (fun _ => tx.amount)
    rw [hs, if_pos (hmem tx htx).1]
  rw [e1, e2]
  exact sub_self _

/-- Witness for C8: the balances over a concrete transfer-only chain sum to
zero. -/
theorem balance_conservation_witness :
    (transferState.participants.sum fun p => get_balance transferState p) = 0 :=
  balance_conservation transferState (by decide) (by decide)

/-! ## Dynamic reward and reward cap (spec-modelled Ledger) -/

/-- C5 (spec-modelled): an uncapped miner's freshly mined block carries a
reward transaction paying `getDynamicReward` of the current chain length, and
that reward — with `baseReward = 10`, `halvingInterval = 10` — is 10 at chain
lengths 0–9, 5 at 10–19, and 5/2 at 20–29. -/
theorem dynamic_reward_halving (env : HashEnv) (fuel : ℕ) (now : ℚ)
    (miner : String) (st st' : LedgerV2)
    (hcap : lookupCount st.mined_blocks_count miner < rewardCap)
    (h : mine_block_v2 env fuel now miner st = some st') :
    (∃ b, st'.blockchain = st.blockchain ++ [b] ∧
      b.transactions = st.open_transactions ++
        [⟨"MINING", miner, getDynamicReward st.blockchain.length⟩]) ∧
    (∀ n : ℕ, (n ≤ 9 → getDynamicReward n = 10) ∧
      (10 ≤ n → n ≤ 19 → getDynamicReward n = 5) ∧
      (20 ≤ n → n ≤ 29 → getDynamicReward n = 5 / 2)) := by
  constructor
  · have hnc : ¬(rewardCap ≤ lookupCount st.mined_blocks_count miner) :=
      Nat.not_le.mpr hcap
    simp only [mine_block_v2] at h
    split at h
    · exact absurd h (by simp)
    · split at h
      · exact absurd h (by simp)
      · split at h
        · exact absurd h (by simp)
        · obtain rfl : _ = st' := by injection h
          exact ⟨_, rfl, rfl⟩
  · intro n
    refine ⟨fun hn => ?_, fun hn1 hn2 => ?_, fun hn1 hn2 => ?_⟩
    · have hd : n / 10 = 0 := by omega
      norm_num [getDynamicReward, baseReward, halvingInterval, hd]
    · have hd : n / 10 = 1 := by omega
      norm_num [getDynamicReward, baseReward, halvingInterval, hd]
    · have hd : n / 10 = 2 := by omega
      norm_num [getDynamicReward, baseReward, halvingInterval, hd]

/-- Witness for C5: mining the fresh class-based ledger under `constEnv`
appends a block whose reward transaction pays the dynamic reward, and the
reward values at chain lengths 5, 15 and 25 are 10, 5 and 5/2. -/
theorem dynamic_reward_halving_witness :
    (∃ b, freshV2Mined.blockchain = freshV2.blockchain ++ [b] ∧
      b.transactions = freshV2.open_transactions ++
        [⟨"MINING", "M", getDynamicReward freshV2.blockchain.length⟩]) ∧
      getDynamicReward 5 = 10 ∧ getDynamicReward 15 = 5 ∧
      getDynamicReward 25 = 5 / 2 := by
  have h := dynamic_reward_halving constEnv 1 0 "M" freshV2 freshV2Mined
    (by decide) rfl
  exact ⟨h.1, (h.2 5).1 (by omega), (h.2 15).2.1 (by omega) (by omega),
    (h.2 25).2.2 (by omega) (by omega)⟩

/-- C6 (spec-modelled): once a miner has reached the lifetime reward cap,
every block that miner still mines carries exactly the mempool transactions —
no reward transaction is added — and the mempool is cleared as usual. -/
theorem reward_cap_blocks_reward (env : HashEnv) (fuel : ℕ) (now : ℚ)
    (miner : String) (st st' : LedgerV2)
    (hcap : rewardCap ≤ lookupCount st.mined_blocks_count miner)
    (h : mine_block_v2 env fuel now miner st = some st') :
    ∃ b, st'.blockchain = st.blockchain ++ [b] ∧
      b.transactions = st.open_transactions ∧
      st'.open_transactions = [] := by
  simp only [mine_block_v2] at h
  split at h
  · exact absurd h (by simp)
  · split at h
    · exact absurd h (by simp)
    · split at h
      · exact absurd h (by simp)
      · obtain rfl : _ = st' := by injection h
        exact ⟨_, rfl, by simp, rfl⟩

/-- Witness for C6: a miner holding 100 mined blocks still mines the pending
transfer, and the new block holds exactly the mempool transactions. -/
theorem reward_cap_blocks_reward_witness :
    ∃ b, cappedV2Mined.blockchain = cappedV2.blockchain ++ [b] ∧
      b.transactions = cappedV2.open_transactions ∧
      cappedV2Mined.open_transactions = [] :=
  reward_cap_blocks_reward constEnv 1 0 "M" cappedV2 cappedV2Mined (by decide)
    (by decide)

end BlockchainSpec
